import Mathlib

/-!
Verification of the AuRa Rolling Finality Engine of this repository.

The engine implementation (package `aura`, file exercised by
`consensus/aura/finality_test.go`) is not present among the provided source
files; only its test file is. Following the spec (`spec.md`, sections 3, 4.1,
4.2, 4.3, 4.4), the engine is therefore modelled here from the spec's words:
a rolling window of pending blocks, a sign-count ledger mapping each authority
to the number of window entries it signed, a `push` operation that validates
signers, appends the block, and drains the window while a strict majority of
authorities is represented, and an ancestry bootstrap that walks backward,
collects the minimal suffix of ancestors reaching quorum, and replays them
through `push`.

Addresses and hashes are modelled as natural numbers (opaque identifiers:
only equality is ever used on them).
-/

namespace AuraFinality

/-- An authority / signer / validator address (opaque identifier). -/
abbrev Address := Nat

/-- A block hash (opaque identifier). -/
abbrev Hash := Nat

/-- Modelled from the spec: a PendingBlock, one entry in the rolling window.
Attributes per section 3: the block hash and the set of distinct signer
addresses attributed to that block (the `number` argument of `push` is not
part of the window entry in the spec's data model). -/
structure PendingBlock where
  hash : Hash
  signers : List Address
deriving Repr, DecidableEq

/-- Modelled from the spec: the whole engine state. `headers` is the Window
(ordered, oldest at the front); `signCount` is the SignCount ledger, a
finite map from authority address to a positive count, modelled as an
association list exactly as a hash map with explicit key deletion;
`signers` is the immutable ValidatorSet; `lastPushed` is the hash of the
most recently pushed block, absent on a fresh engine. Field names follow
the test file (`f.headers`, `f.lastPushed`). -/
structure RollingFinality where
  headers : List PendingBlock
  signCount : List (Address × Nat)
  signers : List Address
  lastPushed : Option Hash
deriving Repr, DecidableEq

/-- Modelled from the spec: `NewRollingFinality(validatorSet)` creates the
engine with empty Window and ledger and no `lastPushed`. -/
def NewRollingFinality (validators : List Address) : RollingFinality :=
  { headers := [], signCount := [], signers := validators, lastPushed := none }

/-- Ledger lookup: the count stored for address `a`, 0 when the key is absent. -/
def lookupCount : List (Address × Nat) → Address → Nat
  | [], _ => 0
  | (b, n) :: rest, a => if b = a then n else lookupCount rest a

/-- Modelled from the spec (4.2 `append`): increment the ledger entry of one
signer, creating the entry at 1 if absent. -/
def incSigner : List (Address × Nat) → Address → List (Address × Nat)
  | [], a => [(a, 1)]
  | (b, n) :: rest, a =>
    if b = a then (b, n + 1) :: rest else (b, n) :: incSigner rest a

/-- Modelled from the spec (4.2 `popFront`): decrement the ledger entry of one
signer, deleting the entry entirely when it reaches 0. -/
def decSigner : List (Address × Nat) → Address → List (Address × Nat)
  | [], _ => []
  | (b, n) :: rest, a =>
    if b = a then (if n ≤ 1 then rest else (b, n - 1) :: rest)
    else (b, n) :: decSigner rest a

/-- Increment the ledger for every signer of a block. -/
def addSigners (sc : List (Address × Nat)) (sgs : List Address) : List (Address × Nat) :=
  sgs.foldl incSigner sc

/-- Decrement the ledger for every signer of a block. -/
def removeSigners (sc : List (Address × Nat)) (sgs : List Address) : List (Address × Nat) :=
  sgs.foldl decSigner sc

/-- Modelled from the spec (4.3 step 4): the finality condition
`distinct * 2 > |ValidatorSet|`, where `distinct` is the number of keys of
the SignCount ledger. -/
def isFinalized (f : RollingFinality) : Bool :=
  f.signers.length < f.signCount.length * 2

/-- Modelled from the spec (4.3 step 5): while the finality condition holds
and the Window is non-empty, pop the oldest block, appending its hash to the
finalized output. `fuel` bounds the iteration; each iteration removes one
window entry, so `fuel = headers.length` always suffices. -/
def drainLoop : Nat → RollingFinality → List Hash → List Hash × RollingFinality
  | 0, f, acc => (acc, f)
  | fuel + 1, f, acc =>
    if isFinalized f then
      match f.headers with
      | [] => (acc, f)
      | b :: rest =>
        drainLoop fuel
          { f with headers := rest, signCount := removeSigners f.signCount b.signers }
          (acc ++ [b.hash])
    else (acc, f)

/-- Modelled from the spec (4.3): `push(hash, number, signers)`. Validate
every signer against the ValidatorSet (4.1); on failure return an error with
no state change. Otherwise append the block, set `lastPushed`, and drain the
window while the finality condition holds, returning the finalized hashes
oldest-first. The `number` argument is accepted but not used by the
algorithm (spec 4.3 never consults it). -/
def push (f : RollingFinality) (hash : Hash) (number : Nat) (sgs : List Address) :
    Except String (List Hash × RollingFinality) :=
  if ∀ a ∈ sgs, a ∈ f.signers then
    let f1 : RollingFinality :=
      { headers := f.headers ++ [{ hash := hash, signers := sgs }],
        signCount := addSigners f.signCount sgs,
        signers := f.signers,
        lastPushed := some hash }
    Except.ok (drainLoop f1.headers.length f1 [])
  else Except.error "unknown validator"

/-- Sequential pushes of a list of (hash, number, signers) triples, collecting
the finalized batch of every push. Fails on the first failing push. -/
def pushAll (f : RollingFinality) :
    List (Hash × Nat × List Address) → Except String (List (List Hash) × RollingFinality)
  | [] => Except.ok ([], f)
  | (h, n, sgs) :: rest =>
    match push f h n sgs with
    | Except.error e => Except.error e
    | Except.ok (fin, f2) =>
      match pushAll f2 rest with
      | Except.error e => Except.error e
      | Except.ok (fins, f3) => Except.ok (fin :: fins, f3)

/-- Modelled from the spec (4.4): one answer of the `ancestorLookup`
collaborator: the block's own signer set, its own hash and number, and its
parent hash. `none` plays the role of `found = false`. -/
structure AncestryEntry where
  signers : List Address
  hash : Hash
  parentHash : Hash
  number : Nat
deriving Repr, DecidableEq

/-- Accumulate the distinct-signer union: append each address not yet seen. -/
def addDistinct (seen : List Address) (sgs : List Address) : List Address :=
  sgs.foldl (fun s a => if a ∈ s then s else s ++ [a]) seen

/-- Modelled from the spec (4.4): the backward collection walk. Starting at
`cur`, repeatedly call the lookup; stop on `found = false`, on reaching the
epoch boundary hash, or once the running distinct-signer union satisfies the
quorum condition. The accumulator is kept chronological (oldest first), so
the result is exactly the replay order. `fuel` bounds the walk. -/
def collectLoop (get : Hash → Option AncestryEntry) (vals : List Address)
    (epochBoundaryHash : Hash) :
    Nat → Hash → List (Hash × Nat × List Address) → List Address →
    List (Hash × Nat × List Address)
  | 0, _, acc, _ => acc
  | fuel + 1, cur, acc, seen =>
    match get cur with
    | none => acc
    | some e =>
      if e.hash = epochBoundaryHash then acc
      else
        let acc2 := (e.hash, e.number, e.signers) :: acc
        let seen2 := addDistinct seen e.signers
        if vals.length < seen2.length * 2 then acc2
        else collectLoop get vals epochBoundaryHash fuel e.parentHash acc2 seen2

/-- Modelled from the spec (4.4): replay the collected blocks through `push`
in chronological order, discarding the intermediate finality batches. -/
def replay (f : RollingFinality) :
    List (Hash × Nat × List Address) → Except String RollingFinality
  | [] => Except.ok f
  | (h, n, sgs) :: rest =>
    match push f h n sgs with
    | Except.error e => Except.error e
    | Except.ok (_, f2) => replay f2 rest

/-- Modelled from the spec (4.4): `buildAncestrySubChain(lookup, startHash,
epochBoundaryHash)`: collect the reverse-chronological ancestor list, then
replay it through `push` (the last replayed block is `startHash`'s own, so a
successful bootstrap leaves `lastPushed = startHash`). -/
def buildAncestrySubChain (f : RollingFinality) (get : Hash → Option AncestryEntry)
    (fuel : Nat) (startHash epochBoundaryHash : Hash) : Except String RollingFinality :=
  replay f (collectLoop get f.signers epochBoundaryHash fuel startHash [] [])

/-- The ancestor lookup of the `FromAncestry` test: block `h` (for `h ≤ 11`)
has the single signer `h % 6`, its own hash `h`, parent `h - 1` and number
`h`; signers cycle through the 6 authorities as the number decreases. -/
def getSingle (h : Hash) : Option AncestryEntry :=
  if h ≤ 11 then some { signers := [h % 6], hash := h, parentHash := h - 1, number := h }
  else none

/-- The ancestor lookup of the `FromAncestryMultipleSigners` test: block `h`
(for `h ≤ 11`) carries the three signers `h % 6, (h+1) % 6, (h+2) % 6`. -/
def getTriple (h : Hash) : Option AncestryEntry :=
  if h ≤ 11 then
    some { signers := [h % 6, (h + 1) % 6, (h + 2) % 6], hash := h,
           parentHash := h - 1, number := h }
  else none

/-- Number of occurrences of address `a` in a signer list. -/
def cnt : List Address → Address → Nat
  | [], _ => 0
  | b :: t, a => (if b = a then 1 else 0) + cnt t a

/-- Total number of occurrences of address `a` among the signer lists of the
window entries. For windows whose blocks carry duplicate-free signer sets
this is exactly the number of entries signed by `a`. -/
def occ : List PendingBlock → Address → Nat
  | [], _ => 0
  | b :: w, a => cnt b.signers a + occ w a

/-- The core correctness invariant of the SignCount ledger (spec section 3):
keys are duplicate-free, every stored count is positive, and the looked-up
count of every address equals its number of signature occurrences in the
Window. -/
def LedgerInv (f : RollingFinality) : Prop :=
  (f.signCount.map Prod.fst).Nodup ∧ (∀ p ∈ f.signCount, 0 < p.2) ∧
    ∀ a, lookupCount f.signCount a = occ f.headers a

/-- Every window entry carries a duplicate-free signer set (spec section 3:
PendingBlock holds the set of distinct signer addresses). -/
def NodupBlocks (f : RollingFinality) : Prop :=
  ∀ b ∈ f.headers, b.signers.Nodup

/-- Reachable engine states: a fresh engine, successful pushes of blocks with
duplicate-free signer sets, and successful ancestry bootstraps whose lookup
yields duplicate-free signer sets (spec section 3: a block's signers form a
set of distinct addresses). -/
inductive Reachable : RollingFinality → Prop where
  | init (vals : List Address) : Reachable (NewRollingFinality vals)
  | push_step (f f2 : RollingFinality) (h : Hash) (n : Nat) (sgs : List Address)
      (fin : List Hash) : Reachable f → sgs.Nodup →
      push f h n sgs = Except.ok (fin, f2) → Reachable f2
  | ancestry_step (f f2 : RollingFinality) (get : Hash → Option AncestryEntry)
      (fuel : Nat) (s e : Hash) : Reachable f →
      (∀ h entry, get h = some entry → entry.signers.Nodup) →
      buildAncestrySubChain f get fuel s e = Except.ok f2 → Reachable f2

/-- The distinct signer addresses represented anywhere in a window. -/
def distinctSigners (w : List PendingBlock) : List Address :=
  w.foldl (fun s b => addDistinct s b.signers) []

theorem cnt_eq_zero_iff (l : List Address) (a : Address) : cnt l a = 0 ↔ a ∉ l := by
  induction l with
  | nil => simp [cnt]
  | cons b t ih =>
    by_cases hba : b = a <;> simp [cnt, hba, ih]
    intro h
    exact fun hc => hba hc.symm

theorem cnt_pos_iff (l : List Address) (a : Address) : 0 < cnt l a ↔ a ∈ l := by
  rw [Nat.pos_iff_ne_zero, ne_eq, cnt_eq_zero_iff, not_not]

theorem cnt_of_nodup (l : List Address) (a : Address) (hl : l.Nodup) :
    cnt l a = if a ∈ l then 1 else 0 := by
  induction l with
  | nil => simp [cnt]
  | cons b t ih =>
    rw [List.nodup_cons] at hl
    by_cases hba : b = a
    · subst hba
      have ht : cnt t b = 0 := (cnt_eq_zero_iff t b).mpr hl.1
      simp [cnt, ht]
    · have hab : ¬ a = b := fun h => hba h.symm
      simp [cnt, hba, ih hl.2, List.mem_cons, hab]

theorem occ_append (w : List PendingBlock) (b : PendingBlock) (a : Address) :
    occ (w ++ [b]) a = occ w a + cnt b.signers a := by
  induction w with
  | nil => simp [occ]
  | cons c w ih => simp [occ, ih]; omega

theorem occ_pos_iff (w : List PendingBlock) (a : Address) :
    0 < occ w a ↔ ∃ b ∈ w, a ∈ b.signers := by
  induction w with
  | nil => simp [occ]
  | cons b w ih =>
    simp only [occ, List.mem_cons]
    constructor
    · intro h
      by_cases hc : 0 < cnt b.signers a
      · exact ⟨b, Or.inl rfl, (cnt_pos_iff _ _).mp hc⟩
      · have : 0 < occ w a := by omega
        obtain ⟨c, hc1, hc2⟩ := ih.mp this
        exact ⟨c, Or.inr hc1, hc2⟩
    · rintro ⟨c, hc | hc, hmem⟩
      · subst hc
        have := (cnt_pos_iff c.signers a).mpr hmem
        omega
      · have := ih.mpr ⟨c, hc, hmem⟩
        omega

theorem occ_eq_zero_mem (w : List PendingBlock) (a : Address) (h : occ w a = 0) :
    ∀ b ∈ w, a ∉ b.signers := by
  intro b hb hmem
  have := (occ_pos_iff w a).mpr ⟨b, hb, hmem⟩
  omega

theorem occ_eq_filter_length (w : List PendingBlock) (a : Address)
    (hw : ∀ b ∈ w, b.signers.Nodup) :
    occ w a = (w.filter (fun b => a ∈ b.signers)).length := by
  induction w with
  | nil => simp [occ]
  | cons b w ih =>
    have hb := hw b (List.mem_cons_self b w)
    have hrest : ∀ c ∈ w, c.signers.Nodup := fun c hc => hw c (List.mem_cons_of_mem b hc)
    by_cases hmem : a ∈ b.signers
    · simp [occ, cnt_of_nodup b.signers a hb, hmem, List.filter_cons, ih hrest]
      omega
    · simp [occ, cnt_of_nodup b.signers a hb, hmem, List.filter_cons, ih hrest]

theorem lookupCount_incSigner (sc : List (Address × Nat)) (x a : Address) :
    lookupCount (incSigner sc x) a = lookupCount sc a + (if x = a then 1 else 0) := by
  induction sc with
  | nil => simp [incSigner, lookupCount]
  | cons p rest ih =>
    obtain ⟨b, n⟩ := p
    by_cases hbx : b = x
    · subst hbx
      by_cases hba : b = a <;> simp [incSigner, lookupCount, hba]
    · by_cases hba : b = a
      · have hxa : ¬ x = a := fun h => hbx (hba.trans h.symm)
        have hax : ¬ a = x := fun h => hxa h.symm
        simp [incSigner, lookupCount, hbx, hba, hxa, hax]
      · simp [incSigner, lookupCount, hbx, hba, ih]

theorem keys_incSigner (sc : List (Address × Nat)) (x : Address) :
    (incSigner sc x).map Prod.fst =
      if x ∈ sc.map Prod.fst then sc.map Prod.fst else sc.map Prod.fst ++ [x] := by
  induction sc with
  | nil => simp [incSigner]
  | cons p rest ih =>
    obtain ⟨b, n⟩ := p
    by_cases hbx : b = x
    · subst hbx
      simp [incSigner]
    · have hxb : ¬ x = b := fun h => hbx h.symm
      by_cases hmem : x ∈ rest.map Prod.fst <;>
        simp [incSigner, hbx, hxb, hmem, ih]

theorem nodupKeys_incSigner (sc : List (Address × Nat)) (x : Address)
    (h : (sc.map Prod.fst).Nodup) : ((incSigner sc x).map Prod.fst).Nodup := by
  rw [keys_incSigner]
  by_cases hmem : x ∈ sc.map Prod.fst
  · simpa [hmem] using h
  · simp only [hmem, if_false]
    rw [List.nodup_append]
    refine ⟨h, List.nodup_singleton x, ?_⟩
    intro a ha hax
    rw [List.mem_singleton] at hax
    subst hax
    exact hmem ha

theorem pos_incSigner (sc : List (Address × Nat)) (x : Address)
    (h : ∀ p ∈ sc, 0 < p.2) : ∀ p ∈ incSigner sc x, 0 < p.2 := by
  induction sc with
  | nil =>
    intro p hp
    simp [incSigner] at hp
    simp [hp]
  | cons q rest ih =>
    obtain ⟨b, n⟩ := q
    intro p hp
    by_cases hbx : b = x
    · subst hbx
      simp [incSigner] at hp
      rcases hp with hp | hp
      · simp [hp]
      · exact h p (List.mem_cons_of_mem _ hp)
    · simp [incSigner, hbx] at hp
      rcases hp with hp | hp
      · subst hp
        exact h (b, n) (List.mem_cons_self _ _)
      · exact ih (fun q hq => h q (List.mem_cons_of_mem _ hq)) p hp

theorem lookupCount_eq_zero_of_not_mem (sc : List (Address × Nat)) (a : Address)
    (h : a ∉ sc.map Prod.fst) : lookupCount sc a = 0 := by
  induction sc with
  | nil => simp [lookupCount]
  | cons p rest ih =>
    obtain ⟨b, n⟩ := p
    simp only [List.map_cons, List.mem_cons] at h
    push_neg at h
    have hba : ¬ b = a := fun hh => h.1 hh.symm
    simp [lookupCount, hba, ih h.2]

theorem lookupCount_decSigner (sc : List (Address × Nat)) (x a : Address)
    (hnd : (sc.map Prod.fst).Nodup) :
    lookupCount (decSigner sc x) a = lookupCount sc a - (if x = a then 1 else 0) := by
  induction sc with
  | nil => simp [decSigner, lookupCount]
  | cons p rest ih =>
    obtain ⟨b, n⟩ := p
    simp only [List.map_cons, List.nodup_cons] at hnd
    by_cases hbx : b = x
    · subst hbx
      by_cases hn : n ≤ 1
      · by_cases hba : b = a
        · subst hba
          have : lookupCount rest b = 0 :=
            lookupCount_eq_zero_of_not_mem rest b hnd.1
          simp [decSigner, lookupCount, hn, this]
        · have hxa : ¬ b = a := hba
          simp [decSigner, lookupCount, hn, hba, hxa]
      · by_cases hba : b = a <;> simp [decSigner, lookupCount, hn, hba]
    · by_cases hba : b = a
      · have hxa : ¬ x = a := fun h => hbx (hba.trans h.symm)
        have hax : ¬ a = x := fun h => hxa h.symm
        simp [decSigner, lookupCount, hbx, hba, hxa, hax]
      · simp [decSigner, lookupCount, hbx, hba, ih hnd.2]

theorem keys_decSigner_sublist (sc : List (Address × Nat)) (x : Address) :
    ((decSigner sc x).map Prod.fst).Sublist (sc.map Prod.fst) := by
  induction sc with
  | nil => simp [decSigner]
  | cons p rest ih =>
    obtain ⟨b, n⟩ := p
    by_cases hbx : b = x
    · subst hbx
      by_cases hn : n ≤ 1
      · simp only [decSigner, if_pos rfl, if_pos hn, List.map_cons]
        exact List.Sublist.cons b (List.Sublist.refl _)
      · simp [decSigner, hn]
    · simp only [decSigner, if_neg hbx, List.map_cons]
      exact List.Sublist.cons₂ b ih

theorem nodupKeys_decSigner (sc : List (Address × Nat)) (x : Address)
    (h : (sc.map Prod.fst).Nodup) : ((decSigner sc x).map Prod.fst).Nodup :=
  (keys_decSigner_sublist sc x).nodup h

theorem pos_decSigner (sc : List (Address × Nat)) (x : Address)
    (h : ∀ p ∈ sc, 0 < p.2) : ∀ p ∈ decSigner sc x, 0 < p.2 := by
  induction sc with
  | nil => simp [decSigner]
  | cons q rest ih =>
    obtain ⟨b, n⟩ := q
    intro p hp
    by_cases hbx : b = x
    · subst hbx
      by_cases hn : n ≤ 1
      · simp only [decSigner, if_pos hn] at hp
        simp at hp
        exact h p (List.mem_cons_of_mem _ hp)
      · simp [decSigner, hn] at hp
        rcases hp with hp | hp
        · subst hp
          show 0 < n - 1
          omega
        · exact h p (List.mem_cons_of_mem _ hp)
    · simp only [decSigner, if_neg hbx, List.mem_cons] at hp
      rcases hp with hp | hp
      · subst hp
        exact h (b, n) (List.mem_cons_self _ _)
      · exact ih (fun q hq => h q (List.mem_cons_of_mem _ hq)) p hp

theorem lookupCount_addSigners (sgs : List Address) (sc : List (Address × Nat)) (a : Address) :
    lookupCount (addSigners sc sgs) a = lookupCount sc a + cnt sgs a := by
  induction sgs generalizing sc with
  | nil => simp [addSigners, cnt]
  | cons x t ih =>
    have hstep : addSigners sc (x :: t) = addSigners (incSigner sc x) t := rfl
    rw [hstep, ih, lookupCount_incSigner]
    by_cases hxa : x = a <;> simp [cnt, hxa] <;> omega

theorem nodupKeys_addSigners (sgs : List Address) (sc : List (Address × Nat))
    (h : (sc.map Prod.fst).Nodup) : ((addSigners sc sgs).map Prod.fst).Nodup := by
  induction sgs generalizing sc with
  | nil => exact h
  | cons x t ih => exact ih (incSigner sc x) (nodupKeys_incSigner sc x h)

theorem pos_addSigners (sgs : List Address) (sc : List (Address × Nat))
    (h : ∀ p ∈ sc, 0 < p.2) : ∀ p ∈ addSigners sc sgs, 0 < p.2 := by
  induction sgs generalizing sc with
  | nil => exact h
  | cons x t ih => exact ih (incSigner sc x) (pos_incSigner sc x h)

theorem nodupKeys_removeSigners (sgs : List Address) (sc : List (Address × Nat))
    (h : (sc.map Prod.fst).Nodup) : ((removeSigners sc sgs).map Prod.fst).Nodup := by
  induction sgs generalizing sc with
  | nil => exact h
  | cons x t ih => exact ih (decSigner sc x) (nodupKeys_decSigner sc x h)

theorem pos_removeSigners (sgs : List Address) (sc : List (Address × Nat))
    (h : ∀ p ∈ sc, 0 < p.2) : ∀ p ∈ removeSigners sc sgs, 0 < p.2 := by
  induction sgs generalizing sc with
  | nil => exact h
  | cons x t ih => exact ih (decSigner sc x) (pos_decSigner sc x h)

theorem lookupCount_removeSigners (sgs : List Address) (sc : List (Address × Nat))
    (a : Address) (hnd : (sc.map Prod.fst).Nodup) :
    lookupCount (removeSigners sc sgs) a = lookupCount sc a - cnt sgs a := by
  induction sgs generalizing sc with
  | nil => simp [removeSigners, cnt]
  | cons x t ih =>
    have hstep : removeSigners sc (x :: t) = removeSigners (decSigner sc x) t := rfl
    rw [hstep, ih (decSigner sc x) (nodupKeys_decSigner sc x hnd),
      lookupCount_decSigner sc x a hnd]
    by_cases hxa : x = a <;> simp [cnt, hxa] <;> omega

theorem signCount_eq_nil_of_no_headers (f : RollingFinality) (hinv : LedgerInv f)
    (hh : f.headers = []) : f.signCount = [] := by
  obtain ⟨hnd, hpos, hlk⟩ := hinv
  cases hsc : f.signCount with
  | nil => rfl
  | cons p rest =>
    exfalso
    obtain ⟨b, n⟩ := p
    have h1 : lookupCount f.signCount b = occ f.headers b := hlk b
    rw [hsc, hh] at h1
    simp [lookupCount, occ] at h1
    have h2 := hpos (b, n) (by rw [hsc]; exact List.mem_cons_self _ _)
    simp at h2
    omega

theorem ledger_pop (f : RollingFinality) (b : PendingBlock) (rest : List PendingBlock)
    (hh : f.headers = b :: rest) (hinv : LedgerInv f) :
    LedgerInv
      { f with headers := rest, signCount := removeSigners f.signCount b.signers } := by
  obtain ⟨hnd, hpos, hlk⟩ := hinv
  refine ⟨nodupKeys_removeSigners _ _ hnd, fun p hp => pos_removeSigners _ _ hpos p hp, ?_⟩
  intro a
  show lookupCount (removeSigners f.signCount b.signers) a = occ rest a
  rw [lookupCount_removeSigners _ _ _ hnd, hlk a, hh]
  simp only [occ]
  omega

theorem ledger_append (f : RollingFinality) (h : Hash) (sgs : List Address)
    (hinv : LedgerInv f) :
    LedgerInv
      { headers := f.headers ++ [{ hash := h, signers := sgs }],
        signCount := addSigners f.signCount sgs,
        signers := f.signers, lastPushed := some h } := by
  obtain ⟨hnd, hpos, hlk⟩ := hinv
  refine ⟨nodupKeys_addSigners _ _ hnd, fun p hp => pos_addSigners _ _ hpos p hp, ?_⟩
  intro a
  show lookupCount (addSigners f.signCount sgs) a = occ (f.headers ++ [⟨h, sgs⟩]) a
  rw [lookupCount_addSigners, occ_append, hlk a]

theorem drainLoop_ledger (fuel : Nat) (f : RollingFinality) (acc : List Hash)
    (hinv : LedgerInv f) : LedgerInv (drainLoop fuel f acc).2 := by
  induction fuel generalizing f acc with
  | zero => exact hinv
  | succ fuel ih =>
    rw [drainLoop]
    split
    · split
      · exact hinv
      · next b rest hh => exact ih _ _ (ledger_pop f b rest hh hinv)
    · exact hinv

theorem drainLoop_not_finalized (fuel : Nat) (f : RollingFinality) (acc : List Hash)
    (hinv : LedgerInv f) (hfuel : f.headers.length ≤ fuel) :
    isFinalized (drainLoop fuel f acc).2 = false := by
  induction fuel generalizing f acc with
  | zero =>
    have hh : f.headers = [] := List.eq_nil_of_length_eq_zero (Nat.le_zero.mp hfuel)
    have hsc := signCount_eq_nil_of_no_headers f hinv hh
    simp [drainLoop, isFinalized, hsc]
  | succ fuel ih =>
    rw [drainLoop]
    split
    · next hfin =>
      split
      · next hh =>
        exfalso
        have hsc := signCount_eq_nil_of_no_headers f hinv hh
        rw [isFinalized, hsc] at hfin
        simp at hfin
      · next b rest hh =>
        apply ih _ _ (ledger_pop f b rest hh hinv)
        show rest.length ≤ fuel
        have hlen : f.headers.length = rest.length + 1 := by rw [hh]; simp
        omega
    · next hfin =>
      simpa using hfin

theorem drainLoop_hashes (fuel : Nat) (f : RollingFinality) (acc : List Hash) :
    (drainLoop fuel f acc).1 ++ (drainLoop fuel f acc).2.headers.map PendingBlock.hash =
      acc ++ f.headers.map PendingBlock.hash := by
  induction fuel generalizing f acc with
  | zero => rfl
  | succ fuel ih =>
    rw [drainLoop]
    split
    · split
      · rfl
      · next b rest hh =>
        rw [ih]
        simp [hh]
    · rfl

theorem drainLoop_signers (fuel : Nat) (f : RollingFinality) (acc : List Hash) :
    (drainLoop fuel f acc).2.signers = f.signers := by
  induction fuel generalizing f acc with
  | zero => rfl
  | succ fuel ih =>
    rw [drainLoop]
    split
    · split
      · rfl
      · next b rest hh => rw [ih]
    · rfl

theorem drainLoop_nodupBlocks (fuel : Nat) (f : RollingFinality) (acc : List Hash)
    (hnb : NodupBlocks f) : NodupBlocks (drainLoop fuel f acc).2 := by
  induction fuel generalizing f acc with
  | zero => exact hnb
  | succ fuel ih =>
    rw [drainLoop]
    split
    · split
      · exact hnb
      · next b rest hh =>
        apply ih
        intro c hc
        exact hnb c (by rw [hh]; exact List.mem_cons_of_mem _ hc)
    · exact hnb

theorem push_ok_elim (f : RollingFinality) (h : Hash) (n : Nat) (sgs : List Address)
    (fin : List Hash) (f2 : RollingFinality)
    (hp : push f h n sgs = Except.ok (fin, f2)) :
    (∀ a ∈ sgs, a ∈ f.signers) ∧
      drainLoop (f.headers ++ [PendingBlock.mk h sgs]).length
        { headers := f.headers ++ [{ hash := h, signers := sgs }],
          signCount := addSigners f.signCount sgs,
          signers := f.signers, lastPushed := some h } [] = (fin, f2) := by
  rw [push] at hp
  split at hp
  · next hval =>
    refine ⟨hval, ?_⟩
    injection hp
  · cases hp

theorem push_ledger (f f2 : RollingFinality) (h : Hash) (n : Nat) (sgs : List Address)
    (fin : List Hash) (hinv : LedgerInv f) (hp : push f h n sgs = Except.ok (fin, f2)) :
    LedgerInv f2 := by
  obtain ⟨-, hd⟩ := push_ok_elim f h n sgs fin f2 hp
  have := drainLoop_ledger (f.headers ++ [PendingBlock.mk h sgs]).length
    { headers := f.headers ++ [{ hash := h, signers := sgs }],
      signCount := addSigners f.signCount sgs,
      signers := f.signers, lastPushed := some h } [] (ledger_append f h sgs hinv)
  rw [hd] at this
  exact this

theorem push_not_finalized (f f2 : RollingFinality) (h : Hash) (n : Nat)
    (sgs : List Address) (fin : List Hash) (hinv : LedgerInv f)
    (hp : push f h n sgs = Except.ok (fin, f2)) : isFinalized f2 = false := by
  obtain ⟨-, hd⟩ := push_ok_elim f h n sgs fin f2 hp
  have := drainLoop_not_finalized (f.headers ++ [PendingBlock.mk h sgs]).length
    { headers := f.headers ++ [{ hash := h, signers := sgs }],
      signCount := addSigners f.signCount sgs,
      signers := f.signers, lastPushed := some h } [] (ledger_append f h sgs hinv)
    (Nat.le_refl _)
  rw [hd] at this
  exact this

theorem push_signers (f f2 : RollingFinality) (h : Hash) (n : Nat) (sgs : List Address)
    (fin : List Hash) (hp : push f h n sgs = Except.ok (fin, f2)) :
    f2.signers = f.signers := by
  obtain ⟨-, hd⟩ := push_ok_elim f h n sgs fin f2 hp
  have := drainLoop_signers (f.headers ++ [PendingBlock.mk h sgs]).length
    { headers := f.headers ++ [{ hash := h, signers := sgs }],
      signCount := addSigners f.signCount sgs,
      signers := f.signers, lastPushed := some h } []
  rw [hd] at this
  exact this

theorem push_nodupBlocks (f f2 : RollingFinality) (h : Hash) (n : Nat)
    (sgs : List Address) (fin : List Hash) (hnb : NodupBlocks f) (hs : sgs.Nodup)
    (hp : push f h n sgs = Except.ok (fin, f2)) : NodupBlocks f2 := by
  obtain ⟨-, hd⟩ := push_ok_elim f h n sgs fin f2 hp
  have := drainLoop_nodupBlocks (f.headers ++ [PendingBlock.mk h sgs]).length
    { headers := f.headers ++ [{ hash := h, signers := sgs }],
      signCount := addSigners f.signCount sgs,
      signers := f.signers, lastPushed := some h } []
    (by
      intro c hc
      rw [List.mem_append] at hc
      rcases hc with hc | hc
      · exact hnb c hc
      · rw [List.mem_singleton] at hc
        rw [hc]
        exact hs)
  rw [hd] at this
  exact this

theorem push_hashes (f f2 : RollingFinality) (h : Hash) (n : Nat) (sgs : List Address)
    (fin : List Hash) (hp : push f h n sgs = Except.ok (fin, f2)) :
    fin ++ f2.headers.map PendingBlock.hash = f.headers.map PendingBlock.hash ++ [h] := by
  obtain ⟨-, hd⟩ := push_ok_elim f h n sgs fin f2 hp
  have := drainLoop_hashes (f.headers ++ [PendingBlock.mk h sgs]).length
    { headers := f.headers ++ [{ hash := h, signers := sgs }],
      signCount := addSigners f.signCount sgs,
      signers := f.signers, lastPushed := some h } []
  rw [hd] at this
  simpa using this

theorem pushAll_hashes (inputs : List (Hash × Nat × List Address)) (f : RollingFinality)
    (fins : List (List Hash)) (fend : RollingFinality)
    (hp : pushAll f inputs = Except.ok (fins, fend)) :
    fins.flatten ++ fend.headers.map PendingBlock.hash =
      f.headers.map PendingBlock.hash ++ inputs.map (fun t => t.1) := by
  induction inputs generalizing f fins with
  | nil =>
    simp [pushAll] at hp
    obtain ⟨h1, h2⟩ := hp
    subst h1
    subst h2
    simp
  | cons t rest ih =>
    obtain ⟨h, n, sgs⟩ := t
    rw [pushAll] at hp
    cases hpush : push f h n sgs with
    | error e =>
      rw [hpush] at hp
      cases hp
    | ok pr =>
      obtain ⟨fin, f2⟩ := pr
      rw [hpush] at hp
      dsimp only at hp
      cases hrest : pushAll f2 rest with
      | error e =>
        rw [hrest] at hp
        cases hp
      | ok pr2 =>
        obtain ⟨fins2, f3⟩ := pr2
        rw [hrest] at hp
        simp only [Except.ok.injEq, Prod.mk.injEq] at hp
        obtain ⟨h1, h2⟩ := hp
        subst h1
        subst h2
        have hph := push_hashes f f2 h n sgs fin hpush
        have hih := ih f2 fins2 hrest
        rw [List.flatten_cons, List.append_assoc, hih, ← List.append_assoc, hph]
        simp

/-- C1: over the lifetime of one engine instance, the finalized hashes
emitted by a sequence of successful pushes, concatenated in emission order,
are followed exactly by the window's hashes to reconstitute the push-order
hash sequence, and hence form the exact prefix of the pushed hashes: no
gaps, no duplicates, no reordering. -/
theorem push_finalization_order (vals : List Address)
    (inputs : List (Hash × Nat × List Address)) (fins : List (List Hash))
    (fend : RollingFinality)
    (hp : pushAll (NewRollingFinality vals) inputs = Except.ok (fins, fend)) :
    fins.flatten ++ fend.headers.map PendingBlock.hash = inputs.map (fun t => t.1) ∧
      fins.flatten = (inputs.map (fun t => t.1)).take fins.flatten.length := by
  have h1 := pushAll_hashes inputs (NewRollingFinality vals) fins fend hp
  simp only [NewRollingFinality, List.map_nil, List.nil_append] at h1
  refine ⟨h1, ?_⟩
  rw [← h1, List.take_left]

/-- Witness for C1: two pushes on a singleton validator set, each finalized
immediately; the concatenation `[7, 8]` is the exact pushed-hash sequence. -/
theorem push_finalization_order_witness :
    ([[7], [8]] : List (List Hash)).flatten ++
        (RollingFinality.mk [] [] [0] (some 8)).headers.map PendingBlock.hash =
      ([(7, 0, [0]), (8, 0, [0])] : List (Hash × Nat × List Address)).map (fun t => t.1) ∧
      ([[7], [8]] : List (List Hash)).flatten =
        (([(7, 0, [0]), (8, 0, [0])] : List (Hash × Nat × List Address)).map
            (fun t => t.1)).take ([[7], [8]] : List (List Hash)).flatten.length :=
  push_finalization_order [0] [(7, 0, [0]), (8, 0, [0])] [[7], [8]]
    (RollingFinality.mk [] [] [0] (some 8)) rfl

theorem replay_inv (blocks : List (Hash × Nat × List Address)) (f f2 : RollingFinality)
    (hnb : ∀ t ∈ blocks, (t.2.2 : List Address).Nodup)
    (hinv : LedgerInv f) (hblocks : NodupBlocks f)
    (hr : replay f blocks = Except.ok f2) : LedgerInv f2 ∧ NodupBlocks f2 := by
  induction blocks generalizing f with
  | nil =>
    simp [replay] at hr
    rw [← hr]
    exact ⟨hinv, hblocks⟩
  | cons t rest ih =>
    obtain ⟨h, n, sgs⟩ := t
    rw [replay] at hr
    cases hpush : push f h n sgs with
    | error e =>
      rw [hpush] at hr
      cases hr
    | ok pr =>
      obtain ⟨fin, fmid⟩ := pr
      rw [hpush] at hr
      dsimp only at hr
      have hsg : sgs.Nodup := by
        have := hnb (h, n, sgs) (List.mem_cons_self _ _)
        simpa using this
      exact ih fmid (fun u hu => hnb u (List.mem_cons_of_mem _ hu))
        (push_ledger f fmid h n sgs fin hinv hpush)
        (push_nodupBlocks f fmid h n sgs fin hblocks hsg hpush) hr

theorem collectLoop_nodup (get : Hash → Option AncestryEntry) (vals : List Address)
    (eb : Hash) (fuel : Nat) (cur : Hash) (acc : List (Hash × Nat × List Address))
    (seen : List Address)
    (hget : ∀ h entry, get h = some entry → entry.signers.Nodup)
    (hacc : ∀ t ∈ acc, (t.2.2 : List Address).Nodup) :
    ∀ t ∈ collectLoop get vals eb fuel cur acc seen, (t.2.2 : List Address).Nodup := by
  induction fuel generalizing cur acc seen with
  | zero => exact hacc
  | succ fuel ih =>
    rw [collectLoop]
    cases hg : get cur with
    | none => exact hacc
    | some e =>
      dsimp only
      split
      · exact hacc
      · split
        · intro t ht
          rcases List.mem_cons.mp ht with h1 | h1
          · rw [h1]
            exact hget cur e hg
          · exact hacc t h1
        · apply ih
          intro t ht
          rcases List.mem_cons.mp ht with h1 | h1
          · rw [h1]
            exact hget cur e hg
          · exact hacc t h1

theorem buildAncestry_inv (f f2 : RollingFinality) (get : Hash → Option AncestryEntry)
    (fuel : Nat) (s e : Hash)
    (hget : ∀ h entry, get h = some entry → entry.signers.Nodup)
    (hinv : LedgerInv f) (hblocks : NodupBlocks f)
    (hb : buildAncestrySubChain f get fuel s e = Except.ok f2) :
    LedgerInv f2 ∧ NodupBlocks f2 := by
  rw [buildAncestrySubChain] at hb
  exact replay_inv _ f f2
    (collectLoop_nodup get f.signers e fuel s [] [] hget (by simp)) hinv hblocks hb

theorem reachable_inv (f : RollingFinality) (hr : Reachable f) :
    LedgerInv f ∧ NodupBlocks f := by
  induction hr with
  | init vals =>
    refine ⟨⟨by simp [NewRollingFinality], by simp [NewRollingFinality], fun a => rfl⟩, ?_⟩
    intro b hb
    simp [NewRollingFinality] at hb
  | push_step f f2 h n sgs fin hr hnd hp ih =>
    exact ⟨push_ledger f f2 h n sgs fin ih.1 hp,
      push_nodupBlocks f f2 h n sgs fin ih.2 hnd hp⟩
  | ancestry_step f f2 get fuel s e hr hget hb ih =>
    exact buildAncestry_inv f f2 get fuel s e hget ih.1 ih.2 hb

theorem lookup_pos_of_mem_keys (sc : List (Address × Nat)) (a : Address)
    (hpos : ∀ p ∈ sc, 0 < p.2) (hmem : a ∈ sc.map Prod.fst) :
    0 < lookupCount sc a := by
  induction sc with
  | nil => simp at hmem
  | cons p rest ih =>
    obtain ⟨b, n⟩ := p
    by_cases hba : b = a
    · have hn := hpos (b, n) (List.mem_cons_self _ _)
      simp at hn
      simp [lookupCount, hba]
      exact hn
    · have hab : ¬ a = b := fun hh => hba hh.symm
      rw [List.map_cons, List.mem_cons] at hmem
      rcases hmem with hmem | hmem
      · exact absurd hmem hab
      · simp [lookupCount, hba]
        exact ih (fun q hq => hpos q (List.mem_cons_of_mem _ hq)) hmem

/-- C3: in every reachable engine state, the SignCount ledger entry of every
authority equals the number of Window entries whose signer set contains it;
every key present in the ledger has count at least 1; an authority absent
from the ledger signs no block in the Window. -/
theorem sign_count_matches_window (f : RollingFinality) (hr : Reachable f) (a : Address) :
    lookupCount f.signCount a = (f.headers.filter (fun b => a ∈ b.signers)).length ∧
      (a ∈ f.signCount.map Prod.fst → 1 ≤ lookupCount f.signCount a) ∧
      (a ∉ f.signCount.map Prod.fst → ∀ b ∈ f.headers, a ∉ b.signers) := by
  obtain ⟨⟨hnd, hpos, hlk⟩, hnb⟩ := reachable_inv f hr
  refine ⟨?_, ?_, ?_⟩
  · rw [hlk a, occ_eq_filter_length f.headers a hnb]
  · intro hmem
    have := lookup_pos_of_mem_keys f.signCount a hpos hmem
    omega
  · intro hmem
    have h0 : lookupCount f.signCount a = 0 :=
      lookupCount_eq_zero_of_not_mem f.signCount a hmem
    rw [hlk a] at h0
    exact occ_eq_zero_mem f.headers a h0

/-- Witness for C3 at the reachable state obtained by one successful push on
a fresh two-authority engine. -/
theorem sign_count_matches_window_witness :
    lookupCount (RollingFinality.mk [PendingBlock.mk 5 [0]] [(0, 1)] [0, 1]
        (some 5)).signCount 0 =
      ((RollingFinality.mk [PendingBlock.mk 5 [0]] [(0, 1)] [0, 1]
          (some 5)).headers.filter (fun b => 0 ∈ b.signers)).length ∧
      (0 ∈ (RollingFinality.mk [PendingBlock.mk 5 [0]] [(0, 1)] [0, 1]
          (some 5)).signCount.map Prod.fst →
        1 ≤ lookupCount (RollingFinality.mk [PendingBlock.mk 5 [0]] [(0, 1)] [0, 1]
          (some 5)).signCount 0) ∧
      (0 ∉ (RollingFinality.mk [PendingBlock.mk 5 [0]] [(0, 1)] [0, 1]
          (some 5)).signCount.map Prod.fst →
        ∀ b ∈ (RollingFinality.mk [PendingBlock.mk 5 [0]] [(0, 1)] [0, 1]
          (some 5)).headers, 0 ∉ b.signers) :=
  sign_count_matches_window
    (RollingFinality.mk [PendingBlock.mk 5 [0]] [(0, 1)] [0, 1] (some 5))
    (Reachable.push_step (NewRollingFinality [0, 1])
      (RollingFinality.mk [PendingBlock.mk 5 [0]] [(0, 1)] [0, 1] (some 5)) 5 0 [0] []
      (Reachable.init [0, 1]) (by decide) rfl) 0

theorem addDistinct_nodup (l seen : List Address) (h : seen.Nodup) :
    (addDistinct seen l).Nodup := by
  induction l generalizing seen with
  | nil => exact h
  | cons x t ih =>
    show (addDistinct (if x ∈ seen then seen else seen ++ [x]) t).Nodup
    apply ih
    by_cases hx : x ∈ seen
    · simpa [hx]
    · simp only [hx, if_false]
      rw [List.nodup_append]
      refine ⟨h, List.nodup_singleton x, ?_⟩
      intro a ha hax
      rw [List.mem_singleton] at hax
      subst hax
      exact hx ha

theorem addDistinct_mem (l seen : List Address) (x : Address) :
    x ∈ addDistinct seen l ↔ x ∈ seen ∨ x ∈ l := by
  induction l generalizing seen with
  | nil => simp [addDistinct]
  | cons y t ih =>
    show x ∈ addDistinct (if y ∈ seen then seen else seen ++ [y]) t ↔ _
    rw [ih]
    by_cases hy : y ∈ seen
    · simp only [hy, if_true, List.mem_cons]
      constructor
      · rintro (h | h)
        · exact Or.inl h
        · exact Or.inr (Or.inr h)
      · rintro (h | h | h)
        · exact Or.inl h
        · subst h
          exact Or.inl hy
        · exact Or.inr h
    · simp only [hy, if_false, List.mem_append, List.mem_singleton, List.mem_cons]
      tauto

theorem distinctFold_nodup (w : List PendingBlock) (s : List Address) (h : s.Nodup) :
    (w.foldl (fun s b => addDistinct s b.signers) s).Nodup := by
  induction w generalizing s with
  | nil => exact h
  | cons b w ih => exact ih _ (addDistinct_nodup b.signers s h)

theorem distinctFold_mem (w : List PendingBlock) (s : List Address) (x : Address) :
    x ∈ w.foldl (fun s b => addDistinct s b.signers) s ↔
      x ∈ s ∨ ∃ b ∈ w, x ∈ b.signers := by
  induction w generalizing s with
  | nil => simp
  | cons b w ih =>
    show x ∈ w.foldl _ (addDistinct s b.signers) ↔ _
    rw [ih, addDistinct_mem]
    simp only [List.mem_cons]
    constructor
    · rintro ((h | h) | ⟨c, hc, hm⟩)
      · exact Or.inl h
      · exact Or.inr ⟨b, Or.inl rfl, h⟩
      · exact Or.inr ⟨c, Or.inr hc, hm⟩
    · rintro (h | ⟨c, hc | hc, hm⟩)
      · exact Or.inl (Or.inl h)
      · subst hc
        exact Or.inl (Or.inr hm)
      · exact Or.inr ⟨c, hc, hm⟩

theorem distinctSigners_nodup (w : List PendingBlock) : (distinctSigners w).Nodup :=
  distinctFold_nodup w [] List.nodup_nil

theorem distinctSigners_mem (w : List PendingBlock) (x : Address) :
    x ∈ distinctSigners w ↔ ∃ b ∈ w, x ∈ b.signers := by
  rw [distinctSigners, distinctFold_mem]
  simp

theorem length_eq_of_nodup_mem_iff (l1 l2 : List Address) (h1 : l1.Nodup)
    (h2 : l2.Nodup) (hmm : ∀ x, x ∈ l1 ↔ x ∈ l2) : l1.length = l2.length := by
  have hfs : l1.toFinset = l2.toFinset := by
    ext x
    simp only [List.mem_toFinset]
    exact hmm x
  rw [← List.toFinset_card_of_nodup h1, ← List.toFinset_card_of_nodup h2, hfs]

theorem distinctSigners_length (f : RollingFinality) (hinv : LedgerInv f) :
    (distinctSigners f.headers).length = f.signCount.length := by
  obtain ⟨hnd, hpos, hlk⟩ := hinv
  have hkeys : (f.signCount.map Prod.fst).length = f.signCount.length :=
    List.length_map _ _
  rw [← hkeys]
  apply length_eq_of_nodup_mem_iff _ _ (distinctSigners_nodup f.headers) hnd
  intro x
  rw [distinctSigners_mem, ← occ_pos_iff]
  constructor
  · intro hocc
    rw [← hlk x] at hocc
    by_contra hmem
    rw [lookupCount_eq_zero_of_not_mem _ _ hmem] at hocc
    omega
  · intro hmem
    rw [← hlk x]
    exact lookup_pos_of_mem_keys _ _ hpos hmem

/-- C2: after any successful push from a reachable state, the number of
distinct signer addresses represented anywhere in the Window satisfies
`distinct * 2 ≤ |ValidatorSet|`: the engine never leaves a state in which
the strict-majority quorum condition still holds on the remaining window. -/
theorem quorum_never_holds_after_push (f f2 : RollingFinality) (h : Hash) (n : Nat)
    (sgs : List Address) (fin : List Hash) (hr : Reachable f)
    (hp : push f h n sgs = Except.ok (fin, f2)) :
    (distinctSigners f2.headers).length * 2 ≤ f2.signers.length := by
  obtain ⟨hinv, -⟩ := reachable_inv f hr
  have hinv2 := push_ledger f f2 h n sgs fin hinv hp
  have hnf := push_not_finalized f f2 h n sgs fin hinv hp
  simp [isFinalized] at hnf
  rw [distinctSigners_length f2 hinv2]
  omega

/-- Witness for C2: one push on a fresh two-authority engine; the window then
holds one distinct signer and `1 * 2 ≤ 2`. -/
theorem quorum_never_holds_after_push_witness :
    (distinctSigners (RollingFinality.mk [PendingBlock.mk 5 [0]] [(0, 1)] [0, 1]
        (some 5)).headers).length * 2 ≤
      (RollingFinality.mk [PendingBlock.mk 5 [0]] [(0, 1)] [0, 1]
        (some 5)).signers.length :=
  quorum_never_holds_after_push (NewRollingFinality [0, 1])
    (RollingFinality.mk [PendingBlock.mk 5 [0]] [(0, 1)] [0, 1] (some 5)) 5 0 [0] []
    (Reachable.init [0, 1]) rfl

theorem drainLoop_idle (fuel : Nat) (f : RollingFinality) (acc : List Hash)
    (h : isFinalized f = false) : drainLoop fuel f acc = (acc, f) := by
  cases fuel with
  | zero => rfl
  | succ fuel =>
    rw [drainLoop]
    simp [h]

theorem push_no_finality_of_small_ledger (f : RollingFinality) (h : Hash) (n : Nat)
    (sgs : List Address) (hval : ∀ x ∈ sgs, x ∈ f.signers)
    (hsmall : (addSigners f.signCount sgs).length * 2 ≤ f.signers.length) :
    push f h n sgs = Except.ok ([],
      { headers := f.headers ++ [{ hash := h, signers := sgs }],
        signCount := addSigners f.signCount sgs,
        signers := f.signers, lastPushed := some h }) := by
  have hfin : isFinalized
      { headers := f.headers ++ [{ hash := h, signers := sgs }],
        signCount := addSigners f.signCount sgs,
        signers := f.signers, lastPushed := some h } = false := by
    simp [isFinalized]
    omega
  rw [push, if_pos hval]
  show Except.ok (drainLoop (f.headers ++ [PendingBlock.mk h sgs]).length
      { headers := f.headers ++ [PendingBlock.mk h sgs],
        signCount := addSigners f.signCount sgs,
        signers := f.signers, lastPushed := some h } []) = _
  rw [drainLoop_idle _ _ _ hfin]

theorem pushAll_single_signer (vals : List Address) (a : Address) (hN : 2 ≤ vals.length)
    (ha : a ∈ vals) :
    ∀ (hs : List (Hash × Nat)) (f : RollingFinality), f.signers = vals →
      (f.signCount = [] ∨ ∃ k, f.signCount = [(a, k)]) →
      ∃ fend, pushAll f (hs.map (fun p => (p.1, p.2, [a]))) =
        Except.ok (hs.map (fun _ => ([] : List Hash)), fend) := by
  intro hs
  induction hs with
  | nil =>
    intro f _ _
    exact ⟨f, rfl⟩
  | cons p t ih =>
    intro f hsig hsc
    obtain ⟨h, n⟩ := p
    have hinc : addSigners f.signCount [a] = incSigner f.signCount a := rfl
    have hone : (addSigners f.signCount [a]).length = 1 := by
      rcases hsc with hsc | ⟨k, hsc⟩ <;> rw [hinc, hsc] <;> simp [incSigner]
    have hpush := push_no_finality_of_small_ledger f h n [a]
      (by
        intro x hx
        rw [List.mem_singleton] at hx
        subst hx
        rw [hsig]
        exact ha)
      (by
        rw [hone, hsig]
        omega)
    obtain ⟨fend, hrest⟩ := ih
      { headers := f.headers ++ [{ hash := h, signers := [a] }],
        signCount := addSigners f.signCount [a],
        signers := f.signers, lastPushed := some h } hsig
      (by
        rcases hsc with hsc | ⟨k, hsc⟩
        · right
          refine ⟨1, ?_⟩
          show addSigners f.signCount [a] = [(a, 1)]
          rw [hinc, hsc]
          rfl
        · right
          refine ⟨k + 1, ?_⟩
          show addSigners f.signCount [a] = [(a, k + 1)]
          rw [hinc, hsc]
          simp [incSigner])
    refine ⟨fend, ?_⟩
    show pushAll f ((h, n, [a]) :: t.map (fun p => (p.1, p.2, [a]))) =
      Except.ok ([] :: t.map (fun _ => ([] : List Hash)), fend)
    rw [pushAll, hpush]
    dsimp only
    rw [hrest]

/-- C7: with at least two authorities, any number of pushes all signed by the
same single authority never produces a non-empty finalized batch, however
long the window grows. -/
theorem same_signer_never_finalizes (vals : List Address) (a : Address)
    (hs : List (Hash × Nat)) (hN : 2 ≤ vals.length) (ha : a ∈ vals) :
    ∃ fend, pushAll (NewRollingFinality vals) (hs.map (fun p => (p.1, p.2, [a]))) =
      Except.ok (hs.map (fun _ => ([] : List Hash)), fend) :=
  pushAll_single_signer vals a hN ha hs (NewRollingFinality vals) rfl (Or.inl rfl)

/-- Witness for C7: two pushes signed by authority 0 on a two-authority
engine; both finalized batches are empty. -/
theorem same_signer_never_finalizes_witness :
    ∃ fend, pushAll (NewRollingFinality [0, 1])
        (([(3, 0), (4, 1)] : List (Hash × Nat)).map (fun p => (p.1, p.2, [0]))) =
      Except.ok (([(3, 0), (4, 1)] : List (Hash × Nat)).map (fun _ => ([] : List Hash)),
        fend) :=
  same_signer_never_finalizes [0, 1] 0 [(3, 0), (4, 1)] (by decide) (by decide)

/-- C4: with ValidatorSet `[A0..A5]`, pushing six blocks signed by
`A0,A1,A2,A0,A1,A2` returns an empty finalized list each time, and a seventh
push signed by `A4` returns exactly `[hash0, hash1, hash2, hash3]`, leaving
the Window containing exactly `[hash4, hash5, hash6]`. -/
theorem finalize_multiple_scenario :
    pushAll (NewRollingFinality [0, 1, 2, 3, 4, 5])
      [(0, 0, [0]), (1, 1, [1]), (2, 2, [2]), (3, 0, [0]), (4, 1, [1]), (5, 2, [2]),
        (6, 6, [4])] =
    Except.ok ([[], [], [], [], [], [], [0, 1, 2, 3]],
      { headers := [{ hash := 4, signers := [1] }, { hash := 5, signers := [2] },
                    { hash := 6, signers := [4] }],
        signCount := [(1, 1), (2, 1), (4, 1)],
        signers := [0, 1, 2, 3, 4, 5],
        lastPushed := some 6 }) := rfl

/-- C8: with a ValidatorSet of exactly one authority, the very first push of a
block signed by that authority finalizes it immediately (quorum `1 * 2 > 1`). -/
theorem single_authority_first_push (a : Address) (h : Hash) (n : Nat) :
    push (NewRollingFinality [a]) h n [a] =
      Except.ok ([h],
        { headers := [], signCount := [], signers := [a], lastPushed := some h }) := by
  simp [push, NewRollingFinality, drainLoop, isFinalized, addSigners, incSigner,
    removeSigners, decSigner]

/-- C10: `push` never consults its block-number argument: two pushes that
differ only in the number return identical results (same finalized hashes,
same Window, same SignCount ledger, same `lastPushed`), so non-ascending or
repeated numbers are accepted exactly like any other. -/
theorem push_ignores_number (f : RollingFinality) (h : Hash) (n₁ n₂ : Nat)
    (sgs : List Address) : push f h n₁ sgs = push f h n₂ sgs := rfl

/-- C5: a push whose signer set contains any address outside the ValidatorSet
(even alongside valid members) returns the unknown-signer error; in this
functional model no successor state is produced, so Window, SignCount and
`lastPushed` are exactly those of the pre-call state. -/
theorem unknown_signer_rejected (f : RollingFinality) (h : Hash) (n : Nat)
    (sgs : List Address) (hbad : ∃ a ∈ sgs, a ∉ f.signers) :
    push f h n sgs = Except.error "unknown validator" := by
  rw [push, if_neg]
  intro hall
  obtain ⟨a, ha, hna⟩ := hbad
  exact hna (hall a ha)

/-- Witness for C5, matching the `RejectsUnknownSigners` test: validators
`[1,2,3]`, pushed signers `[0,4]`. -/
theorem unknown_signer_rejected_witness :
    push (NewRollingFinality [1, 2, 3]) 0 0 [0, 4] = Except.error "unknown validator" :=
  unknown_signer_rejected (NewRollingFinality [1, 2, 3]) 0 0 [0, 4]
    ⟨0, by decide, by decide⟩

/-- C6: bootstrapping from tip `11` over the single-signer cycling ancestry
collects exactly the minimal ancestor suffix reaching 4 distinct signers
(blocks `8,9,10,11`), replays it, and ends with a Window of size 3 and
`lastPushed = 11`. -/
theorem from_ancestry_scenario :
    collectLoop getSingle [0, 1, 2, 3, 4, 5] 99 100 11 [] [] =
      [(8, 8, [2]), (9, 9, [3]), (10, 10, [4]), (11, 11, [5])] ∧
    buildAncestrySubChain (NewRollingFinality [0, 1, 2, 3, 4, 5]) getSingle 100 11 99 =
      Except.ok
        { headers := [{ hash := 9, signers := [3] }, { hash := 10, signers := [4] },
                      { hash := 11, signers := [5] }],
          signCount := [(3, 1), (4, 1), (5, 1)],
          signers := [0, 1, 2, 3, 4, 5],
          lastPushed := some 11 } := ⟨rfl, rfl⟩

/-- C9: bootstrapping from tip `11` over the three-signer cycling ancestry
succeeds and leaves the Window containing exactly the tip block, with
`lastPushed = 11` (the strictly older collected block is drained during
replay). -/
theorem from_ancestry_multiple_signers_scenario :
    buildAncestrySubChain (NewRollingFinality [0, 1, 2, 3, 4, 5]) getTriple 100 11 99 =
      Except.ok
        { headers := [{ hash := 11, signers := [5, 0, 1] }],
          signCount := [(5, 1), (0, 1), (1, 1)],
          signers := [0, 1, 2, 3, 4, 5],
          lastPushed := some 11 } := rfl

end AuraFinality
